import Mathlib

/-!
Verification of the downtime-calendar construction pipeline in
`technical/downtime_check/the35down.py`.

Times (MJD values) and probabilities are modelled as rationals `ℚ`;
the Python floats form a subset of these values and every operation the
code performs on them (comparison, max, min, +, -, *, /) is exact on
that subset.

The merge step of `new_downtimes` works on plain (start, end) pairs,
modelled by `Iv`.  The sampler `UnscheduledDowntimeDataYearOne.make_data`
works on (start, end, activity) records, modelled by `DownRec`; its
`numpy` random generator is modelled by an abstract deterministic stream
(`RngModel`), consumed one draw at a time exactly in the order the code
draws.
-/

/-- A (start, end) downtime interval: one row of the structured numpy
array `downtimes` in `new_downtimes` (fields "start" and "end"). -/
structure Iv where
  s : ℚ
  e : ℚ
deriving DecidableEq, Repr

/-- `a` starts no later than `b`: the key used by
`downtimes.sort(order="start")`. -/
def startLe (a b : Iv) : Prop := a.s ≤ b.s

instance : DecidableRel startLe := fun a b => inferInstanceAs (Decidable (a.s ≤ b.s))

instance : IsTotal Iv startLe := ⟨fun a b => le_total a.s b.s⟩

instance : IsTrans Iv startLe := ⟨fun _ _ _ h1 h2 => le_trans h1 h2⟩

/-- `downtimes.sort(order="start")`: sort the interval list ascending by
start.  (numpy's sort is unstable; any sorted permutation is a faithful
model and no claim depends on the order of ties.) -/
def sortIv (l : List Iv) : List Iv := l.insertionSort startLe

/-- `diff = downtimes["start"][1:] - downtimes["end"][0:-1]`:
the gap after each interval to the start of the next. -/
def diffs : List Iv → List ℚ
  | a :: b :: t => (b.s - a.e) :: diffs (b :: t)
  | _ => []

/-- `np.min` of a list; `none` models the `ValueError` numpy raises on an
empty array. -/
def npmin : List ℚ → Option ℚ
  | [] => none
  | x :: t => some (t.foldl min x)

/-- One left-to-right scan of
`for i, dt in enumerate(downtimes[0:-1]): ...` in `new_downtimes`:
whenever `start[i+1] < end[i]` (reading the already-updated `end[i]`,
since the slice is a view into the mutated array), both `end[i]` and
`end[i+1]` are set to `max(end[i], end[i+1])`.  `sweepAux a t` scans the
suffix whose current row is `a`. -/
def sweepAux (a : Iv) : List Iv → List Iv
  | [] => [a]
  | b :: t =>
    if b.s < a.e then
      ⟨a.s, max a.e b.e⟩ :: sweepAux ⟨b.s, max a.e b.e⟩ t
    else
      a :: sweepAux b t

/-- The full end-extension pass over the array. -/
def sweep : List Iv → List Iv
  | [] => []
  | a :: t => sweepAux a t

/-- Trailing edge of the array: `np.roll(ends, 1)` wraps the last `end`
in front of the first row; 0 is a dummy for the empty list. -/
def lastE : List Iv → ℚ
  | [] => 0
  | [x] => x.e
  | _ :: x :: t => lastE (x :: t)

/-- `downtimes[np.where(downtimes["end"] - np.roll(downtimes["end"], 1) != 0)]`:
keep row `i` iff its end differs from the (post-sweep, pre-filter) end of
row `i-1`; `prev` carries that rolled value. -/
def dedupeAux (prev : ℚ) : List Iv → List Iv
  | [] => []
  | x :: t => if x.e = prev then dedupeAux x.e t else x :: dedupeAux x.e t

/-- The dedupe step; for row 0 `np.roll` compares against the end of the
last row. -/
def dedupe : List Iv → List Iv
  | [] => []
  | x :: t => dedupeAux (lastE (x :: t)) (x :: t)

/-- Outcomes the merge step of `new_downtimes` can raise.  `emptyMin`
models the `ValueError` of `np.min` on an empty `diff` array (fewer than
two rows).  `nonConvergence` is the fuel marker of this fueled embedding;
`merge_loop_never_diverges` proves it is never returned when the fuel is
at least the interval count, which makes the fueled definition compute
the same fixed point as the unbounded Python `while` loop. -/
inductive MergeError where
  | emptyMin
  | nonConvergence
deriving DecidableEq, Repr

/-- The fixed-point loop `while np.min(diff) < 0: ...` of `new_downtimes`,
with explicit fuel counting the remaining permitted passes. -/
def mergeLoop : ℕ → List Iv → Except MergeError (List Iv)
  | 0, l =>
    match npmin (diffs l) with
    | none => .error .emptyMin
    | some m => if m < 0 then .error .nonConvergence else .ok l
  | f + 1, l =>
    match npmin (diffs l) with
    | none => .error .emptyMin
    | some m => if m < 0 then mergeLoop f (dedupe (sweep l)) else .ok l

/-- The merge step of `new_downtimes` applied to the concatenated downtime
list: sort ascending by start, then coalesce overlaps until no overlap
remains.  Fuel `l.length` is enough (`merge_loop_never_diverges`). -/
def mergeDowntimes (l : List Iv) : Except MergeError (List Iv) :=
  mergeLoop l.length (sortIv l)

/-- `x` lies in the union of (closed) time covered by the intervals of `l`. -/
def covered (l : List Iv) (x : ℚ) : Prop := ∃ iv, iv ∈ l ∧ iv.s ≤ x ∧ x ≤ iv.e

/-- All intervals of `l` are genuine downtime windows (positive length),
as every interval produced by the three sources is. -/
def validIvs (l : List Iv) : Prop := ∀ iv ∈ l, iv.s < iv.e

/-! ## The year-one unscheduled-downtime sampler -/

/-- One downtime record of `UnscheduledDowntimeDataYearOne`: a (start,
end, activity) triple appended to `starts` / `ends` / `acts` (times kept
as their MJD values). -/
structure DownRec where
  start : ℚ
  stop : ℚ
  activity : String
deriving DecidableEq, Repr

/-- One severity row of the class: occurrence probability per night,
duration in days, and activity label. -/
structure SevEvent where
  P : ℚ
  days : ℕ
  level : String
deriving DecidableEq, Repr

/-- `MINOR_EVENT = {"P": 0.0137, "length": 1, "level": "minor event"}`. -/
def MINOR_EVENT : SevEvent := ⟨0.0137, 1, "minor event"⟩

/-- `INTERMEDIATE_EVENT = {"P": 0.00548, "length": 3, "level": "intermediate event"}`. -/
def INTERMEDIATE_EVENT : SevEvent := ⟨0.00548, 3, "intermediate event"⟩

/-- `MAJOR_EVENT = {"P": 0.00137, "length": 7, "level": "major event"}`. -/
def MAJOR_EVENT : SevEvent := ⟨0.00137, 7, "major event"⟩

/-- `CATASTROPHIC_EVENT = {"P": 0.000274, "length": 14, "level": "catastrophic event"}`. -/
def CATASTROPHIC_EVENT : SevEvent := ⟨0.000274, 14, "catastrophic event"⟩

/-- The severity table in the order the `elif` chain of `make_data`
examines it: catastrophic, major, intermediate, minor. -/
def eventTable : List SevEvent :=
  [CATASTROPHIC_EVENT, MAJOR_EVENT, INTERMEDIATE_EVENT, MINOR_EVENT]

/-- `end_of_start = 380`: nights with index below this use the elevated
(commissioning) regime. -/
def end_of_start : ℕ := 380

/-- Model of `np.random.default_rng(seed)`.  `draws k` is the k-th unit
draw of the deterministic stream (`rng.random()` and the unit variate
under `rng.uniform`); `gumbelOf u` is the Gumbel(loc=1, scale=6) variate
`rng.gumbel` computes from the unit draw `u` (its exact transform needs
logarithms, external to this development, so it is carried as an abstract
component of the generator model). -/
structure RngModel where
  draws : ℕ → ℚ
  gumbelOf : ℚ → ℚ

/-- Draws of a real numpy generator are unit-interval values. -/
def unitDraws (m : RngModel) : Prop := ∀ k, 0 ≤ m.draws k ∧ m.draws k < 1

/-- State threaded through the `for night, (sunset, sunrise)` loop of
`make_data`: the position in the random stream, the `night_counted`
occupancy ledger, and the records accumulated so far. -/
structure MDState where
  k : ℕ
  counted : ℕ → Bool
  recs : List DownRec

/-- `night_counted[night:night + days] = 1` (numpy slice assignment;
reads in `make_data` only ever probe indices below the array length, so
the unbounded-function model is exact). -/
def markRange (c : ℕ → Bool) (n days : ℕ) : ℕ → Bool :=
  fun j => if n ≤ j ∧ j < n + days then true else c j

/-- `nightly_threshold = 0.5 * (1 - night / (end_of_start + 45))`. -/
def nightlyThreshold (night : ℕ) : ℚ :=
  0.5 * (1 - (night : ℚ) / ((end_of_start : ℚ) + 45))

/-- The two clamps applied to the Gumbel draw `prob_time` in order:
`if prob_time >= hours_in_night: prob_time = hours_in_night` then
`if prob_time <= 1: prob_time = 1.0`. -/
def clampDuration (g hours : ℚ) : ℚ :=
  let d1 := if g ≥ hours then hours else g
  if d1 ≤ 1 then 1 else d1

/-- The `if/elif` severity chain of the steady-state branch of
`make_data`, returning the event that fires for draw `p` (if any). -/
def steadyEvent (p : ℚ) : Option SevEvent :=
  if p < CATASTROPHIC_EVENT.P then some CATASTROPHIC_EVENT
  else if p < MAJOR_EVENT.P then some MAJOR_EVENT
  else if p < INTERMEDIATE_EVENT.P then some INTERMEDIATE_EVENT
  else if p < MINOR_EVENT.P then some MINOR_EVENT
  else none

/-- One iteration of the `for night, (sunset, sunrise)` loop of
`make_data`.  Note `prob = self.rng.random()` is drawn before the
`night_counted` check, so occupied nights still consume one draw. -/
def nightStep (m : RngModel) (st : MDState) (night : ℕ) (sunset sunrise : ℚ) : MDState :=
  let p := m.draws st.k
  let k1 := st.k + 1
  let hours := (sunrise - sunset) * 24
  if st.counted night then { st with k := k1 }
  else if night < end_of_start then
    let st1 :=
      if p ≤ nightlyThreshold night then
        let g := m.gumbelOf (m.draws k1)
        let dur := clampDuration g hours
        let tmax := hours - dur
        if tmax ≤ 0 then
          { k := k1 + 1, counted := st.counted,
            recs := st.recs ++ [⟨sunset, sunrise, "Year1 Eng"⟩] }
        else
          let offset := sunset + (tmax / 24) * m.draws (k1 + 1)
          { k := k1 + 2, counted := st.counted,
            recs := st.recs ++ [⟨offset, offset + dur / 24, "Year1 Eng"⟩] }
      else { st with k := k1 }
    { st1 with counted := fun n => if n = night then true else st1.counted n }
  else
    match steadyEvent p with
    | none => { st with k := k1 }
    | some ev =>
      { k := k1, counted := markRange st.counted night ev.days,
        recs := st.recs ++ [⟨sunset, sunset + (ev.days : ℚ), ev.level⟩] }

/-- The whole `for night, (sunset, sunrise) in enumerate(zip(...))` loop. -/
def nightsLoop (m : RngModel) (st : MDState) (night : ℕ) : List (ℚ × ℚ) → MDState
  | [] => st
  | (ss, sr) :: rest => nightsLoop m (nightStep m st night ss sr) (night + 1) rest

/-- `make_data`: run the nightly loop over `zip(sunsets, sunrises)` from a
fresh generator and empty ledger, returning the downtime records. -/
def makeDataOf (m : RngModel) (sunsets sunrises : List ℚ) : List DownRec :=
  (nightsLoop m ⟨0, fun _ => false, []⟩ 0 (sunsets.zip sunrises)).recs

/-- The constructor arguments of `UnscheduledDowntimeDataYearOne`. -/
structure Unscheduled where
  sunsets : List ℚ
  sunrises : List ℚ
  seed : ℤ
deriving DecidableEq

/-- `__init__` stores the fields and runs `make_data`, which seeds the
generator with `np.random.default_rng(seed=self.seed)`; `dr` models that
(deterministic) seed-to-stream constructor.  `__call__` then returns the
stored downtime array. -/
def Unscheduled.downtime (u : Unscheduled) (dr : ℤ → RngModel) : List DownRec :=
  makeDataOf (dr u.seed) u.sunsets u.sunrises

/-! ## The calendar builder `new_downtimes` -/

/-- One row of `almanac.sunsets`: the night number and the −12° twilight
sunset/sunrise columns read by `new_downtimes` (other columns are never
touched there). -/
structure AlmRow where
  night : ℤ
  sun_n12_setting : ℚ
  sun_n12_rising : ℚ
deriving DecidableEq, Repr

/-- `np.where((almanac.sunsets['night'] >= 0) & (almanac.sunsets['night'] < 366))`:
the rows selected for the year-one sampler. -/
def selectYear1 (alm : List AlmRow) : List AlmRow :=
  alm.filter fun r => decide (0 ≤ r.night ∧ r.night < 366)

/-- `new_downtimes`: build the year-one sampler inputs from the almanac's
−12° twilight columns, collect the (start, end) pairs of the three
sources in order (year-one unscheduled, steady-state regular, scheduled),
and run the merge step.  The steady-state and scheduled sources are
external collaborators and enter as plain interval lists. -/
def newDowntimes (dr : ℤ → RngModel) (alm : List AlmRow)
    (regular sched : List Iv) : Except MergeError (List Iv) :=
  let sel := selectYear1 alm
  let sunset := sel.map fun r => r.sun_n12_setting
  let sunrise := sel.map fun r => r.sun_n12_rising
  let unsched := (Unscheduled.mk sunset sunrise 43).downtime dr
  mergeDowntimes ((unsched.map fun rc => Iv.mk rc.start rc.stop) ++ regular ++ sched)

/-! ## Concrete generator models used by witnesses and counterexamples -/

/-- A concrete generator whose unit draws are all `1/5` and whose Gumbel
transform is the identity (legal: any rational can be a Gumbel variate). -/
def demoRng : RngModel := ⟨fun _ => 1/5, fun q => q⟩

/-- A concrete generator whose unit draws are all `0`. -/
def zeroRng : RngModel := ⟨fun _ => 0, fun q => q⟩

/-- The empty sampler state. -/
def mdInit : MDState := ⟨0, fun _ => false, []⟩

/-! ## Basic lemmas about the merge-step components -/

/-- Adjacent-overlap predicate: some consecutive pair of `l` overlaps. -/
def adjOv : List Iv → Prop
  | a :: b :: t => b.s < a.e ∨ adjOv (b :: t)
  | _ => False

/-- Adjacent-equal-end predicate: some consecutive pair of `l` has equal
ends. -/
def adjEq : List Iv → Prop
  | a :: b :: t => a.e = b.e ∨ adjEq (b :: t)
  | _ => False

theorem foldl_min_le_init : ∀ (t : List ℚ) (x : ℚ), t.foldl min x ≤ x := by
  intro t
  induction t with
  | nil => intro x; exact le_refl x
  | cons y t ih =>
    intro x
    calc (y :: t).foldl min x = t.foldl min (min x y) := rfl
    _ ≤ min x y := ih (min x y)
    _ ≤ x := min_le_left x y

theorem foldl_min_le_mem : ∀ (t : List ℚ) (x d : ℚ), d ∈ t → t.foldl min x ≤ d := by
  intro t
  induction t with
  | nil => intro x d hd; cases hd
  | cons y t ih =>
    intro x d hd
    rcases List.mem_cons.mp hd with h | h
    · subst h
      calc (d :: t).foldl min x = t.foldl min (min x d) := rfl
      _ ≤ min x d := foldl_min_le_init t (min x d)
      _ ≤ d := min_le_right x d
    · exact ih (min x y) d h

theorem foldl_min_mem : ∀ (t : List ℚ) (x : ℚ), t.foldl min x = x ∨ t.foldl min x ∈ t := by
  intro t
  induction t with
  | nil => intro x; exact Or.inl rfl
  | cons y t ih =>
    intro x
    rcases ih (min x y) with h | h
    · rcases min_cases x y with ⟨hm, _⟩ | ⟨hm, _⟩
      · exact Or.inl (by rw [List.foldl_cons, h, hm])
      · refine Or.inr (List.mem_cons.mpr (Or.inl ?_))
        rw [List.foldl_cons, h, hm]
    · exact Or.inr (List.mem_cons.mpr (Or.inr h))

theorem npmin_le {l : List ℚ} {m : ℚ} (h : npmin l = some m) : ∀ d ∈ l, m ≤ d := by
  cases l with
  | nil => cases h
  | cons x t =>
    intro d hd
    have hm : m = t.foldl min x := by
      have := h
      simp only [npmin, Option.some.injEq] at this
      exact this.symm
    subst hm
    rcases List.mem_cons.mp hd with h | h
    · subst h; exact foldl_min_le_init t d
    · exact foldl_min_le_mem t x d h

theorem npmin_mem {l : List ℚ} {m : ℚ} (h : npmin l = some m) : m ∈ l := by
  cases l with
  | nil => cases h
  | cons x t =>
    have hm : m = t.foldl min x := by
      have := h
      simp only [npmin, Option.some.injEq] at this
      exact this.symm
    subst hm
    rcases foldl_min_mem t x with h | h
    · rw [h]; exact List.mem_cons_self x t
    · exact List.mem_cons.mpr (Or.inr h)

theorem npmin_eq_none {l : List ℚ} (h : npmin l = none) : l = [] := by
  cases l with
  | nil => rfl
  | cons x t => cases h

theorem diffs_eq_nil : ∀ {l : List Iv}, diffs l = [] → l = [] ∨ ∃ a, l = [a] := by
  intro l h
  match l with
  | [] => exact Or.inl rfl
  | [a] => exact Or.inr ⟨a, rfl⟩
  | a :: b :: t => simp [diffs] at h

theorem diffs_nonneg_chain : ∀ l : List Iv, (∀ d ∈ diffs l, 0 ≤ d) →
    List.Chain' (fun u v => u.e ≤ v.s) l := by
  intro l
  match l with
  | [] => intro _; exact List.chain'_nil
  | [a] => intro _; exact List.chain'_singleton a
  | a :: b :: t =>
    intro h
    have h0 : 0 ≤ b.s - a.e := h _ (List.mem_cons_self _ _)
    have ht : ∀ d ∈ diffs (b :: t), 0 ≤ d := fun d hd => h d (List.mem_cons.mpr (Or.inr hd))
    exact List.chain'_cons.mpr ⟨by linarith, diffs_nonneg_chain (b :: t) ht⟩

theorem diffs_neg_adjOv : ∀ (l : List Iv) (d : ℚ), d ∈ diffs l → d < 0 → adjOv l := by
  intro l
  match l with
  | [] => intro d hd; cases hd
  | [a] => intro d hd; cases hd
  | a :: b :: t =>
    intro d hd hneg
    rcases List.mem_cons.mp hd with h | h
    · subst h
      exact Or.inl (by linarith)
    · exact Or.inr (diffs_neg_adjOv (b :: t) d h hneg)

theorem adjOv_shape : ∀ {l : List Iv}, adjOv l → ∃ a b t, l = a :: b :: t := by
  intro l h
  match l with
  | [] => cases h
  | [a] => cases h
  | a :: b :: t => exact ⟨a, b, t, rfl⟩

/-! ## The extension sweep -/

theorem sweepAux_starts : ∀ (t : List Iv) (a : Iv),
    (sweepAux a t).map Iv.s = (a :: t).map Iv.s := by
  intro t
  induction t with
  | nil => intro a; rfl
  | cons b t ih =>
    intro a
    by_cases h : b.s < a.e
    · simp only [sweepAux, if_pos h, List.map_cons]
      have := ih ⟨b.s, max a.e b.e⟩
      simp only [List.map_cons] at this
      simp [this]
    · simp only [sweepAux, if_neg h, List.map_cons]
      have := ih b
      simp only [List.map_cons] at this
      simp [this]

theorem sweepAux_length : ∀ (t : List Iv) (a : Iv),
    (sweepAux a t).length = t.length + 1 := by
  intro t a
  have h1 : ((sweepAux a t).map Iv.s).length = ((a :: t).map Iv.s).length := by
    rw [sweepAux_starts]
  simpa using h1

theorem sweep_length : ∀ l : List Iv, (sweep l).length = l.length := by
  intro l
  cases l with
  | nil => rfl
  | cons a t => simpa [sweep] using sweepAux_length t a

theorem sweepAux_head : ∀ (t : List Iv) (a : Iv),
    ∃ c r, sweepAux a t = c :: r ∧ c.s = a.s ∧ a.e ≤ c.e := by
  intro t
  induction t with
  | nil => intro a; exact ⟨a, [], rfl, rfl, le_refl _⟩
  | cons b t _ =>
    intro a
    by_cases h : b.s < a.e
    · exact ⟨⟨a.s, max a.e b.e⟩, sweepAux ⟨b.s, max a.e b.e⟩ t,
        by simp [sweepAux, if_pos h], rfl, le_max_left _ _⟩
    · exact ⟨a, sweepAux b t, by simp [sweepAux, if_neg h], rfl, le_refl _⟩

theorem sweepAux_id_of_not_adjOv : ∀ (t : List Iv) (a : Iv),
    ¬ adjOv (a :: t) → sweepAux a t = a :: t := by
  intro t
  induction t with
  | nil => intro a _; rfl
  | cons b t ih =>
    intro a h
    have h1 : ¬ b.s < a.e := fun hb => h (Or.inl hb)
    have h2 : ¬ adjOv (b :: t) := fun hb => h (Or.inr hb)
    simp only [sweepAux, if_neg h1]
    rw [ih b h2]

theorem sweepAux_adjEq : ∀ (t : List Iv) (a : Iv),
    adjOv (a :: t) → adjEq (sweepAux a t) := by
  intro t
  induction t with
  | nil => intro a h; cases h
  | cons b t ih =>
    intro a h
    by_cases hov : b.s < a.e
    · simp only [sweepAux, if_pos hov]
      by_cases h2 : adjOv (⟨b.s, max a.e b.e⟩ :: t)
      · have := ih ⟨b.s, max a.e b.e⟩ h2
        obtain ⟨c, r, hcr, _, _⟩ := sweepAux_head t ⟨b.s, max a.e b.e⟩
        rw [hcr] at this ⊢
        exact Or.inr this
      · rw [sweepAux_id_of_not_adjOv t ⟨b.s, max a.e b.e⟩ h2]
        exact Or.inl rfl
    · have hb : adjOv (b :: t) := by
        rcases h with h | h
        · exact absurd h hov
        · exact h
      simp only [sweepAux, if_neg hov]
      have := ih b hb
      obtain ⟨c, r, hcr, _, _⟩ := sweepAux_head t b
      rw [hcr] at this ⊢
      exact Or.inr this

theorem sweepAux_valid : ∀ (t : List Iv) (a : Iv),
    (∀ iv ∈ a :: t, iv.s < iv.e) → ∀ iv ∈ sweepAux a t, iv.s < iv.e := by
  intro t
  induction t with
  | nil =>
    intro a h iv hiv
    have hia : iv = a := by simpa [sweepAux] using hiv
    rw [hia]
    exact h a (List.mem_cons_self _ _)
  | cons b t ih =>
    intro a h iv hiv
    have ha : a.s < a.e := h a (List.mem_cons_self _ _)
    have hb : b.s < b.e := h b (List.mem_cons.mpr (Or.inr (List.mem_cons_self _ _)))
    by_cases hov : b.s < a.e
    · simp only [sweepAux, if_pos hov] at hiv
      rcases List.mem_cons.mp hiv with h' | h'
      · subst h'
        exact lt_of_lt_of_le ha (le_max_left _ _)
      · refine ih ⟨b.s, max a.e b.e⟩ ?_ iv h'
        intro jv hjv
        rcases List.mem_cons.mp hjv with h'' | h''
        · subst h''
          exact lt_of_lt_of_le hb (le_max_right _ _)
        · exact h jv (List.mem_cons.mpr (Or.inr (List.mem_cons.mpr (Or.inr h''))))
    · simp only [sweepAux, if_neg hov] at hiv
      rcases List.mem_cons.mp hiv with h' | h'
      · subst h'; exact ha
      · refine ih b ?_ iv h'
        intro jv hjv
        exact h jv (List.mem_cons.mpr (Or.inr hjv))

theorem pairwise_startLe_iff_map {l : List Iv} :
    List.Pairwise startLe l ↔ List.Pairwise (· ≤ ·) (l.map Iv.s) := by
  rw [List.pairwise_map]
  rfl

theorem sweepAux_sorted : ∀ (t : List Iv) (a : Iv),
    List.Pairwise startLe (a :: t) → List.Pairwise startLe (sweepAux a t) := by
  intro t a h
  rw [pairwise_startLe_iff_map, sweepAux_starts]
  exact pairwise_startLe_iff_map.mp h

theorem covered_cons {a : Iv} {t : List Iv} {x : ℚ} :
    covered (a :: t) x ↔ (a.s ≤ x ∧ x ≤ a.e) ∨ covered t x := by
  constructor
  · rintro ⟨iv, hmem, h1, h2⟩
    rcases List.mem_cons.mp hmem with h | h
    · subst h; exact Or.inl ⟨h1, h2⟩
    · exact Or.inr ⟨iv, h, h1, h2⟩
  · rintro (⟨h1, h2⟩ | ⟨iv, hmem, h1, h2⟩)
    · exact ⟨a, List.mem_cons_self _ _, h1, h2⟩
    · exact ⟨iv, List.mem_cons.mpr (Or.inr hmem), h1, h2⟩

theorem covered_subset {l₁ l₂ : List Iv} (h : ∀ iv ∈ l₁, iv ∈ l₂) {x : ℚ} :
    covered l₁ x → covered l₂ x := by
  rintro ⟨iv, hmem, h1, h2⟩
  exact ⟨iv, h iv hmem, h1, h2⟩

theorem covered_perm {l₁ l₂ : List Iv} (h : l₁.Perm l₂) (x : ℚ) :
    covered l₁ x ↔ covered l₂ x :=
  ⟨covered_subset fun _ hm => h.mem_iff.mp hm,
   covered_subset fun _ hm => h.mem_iff.mpr hm⟩

theorem sweepAux_covered : ∀ (t : List Iv) (a : Iv) (x : ℚ),
    List.Pairwise startLe (a :: t) →
    (covered (sweepAux a t) x ↔ covered (a :: t) x) := by
  intro t
  induction t with
  | nil => intro a x _; rfl
  | cons b t ih =>
    intro a x hp
    have hab : a.s ≤ b.s := (List.pairwise_cons.mp hp).1 b (List.mem_cons_self _ _)
    have hpt : List.Pairwise startLe (b :: t) := (List.pairwise_cons.mp hp).2
    by_cases hov : b.s < a.e
    · have hpB : List.Pairwise startLe (⟨b.s, max a.e b.e⟩ :: t) := by
        rcases List.pairwise_cons.mp hpt with ⟨hb, ht⟩
        exact List.pairwise_cons.mpr ⟨fun y hy => hb y hy, ht⟩
      have ihB := ih ⟨b.s, max a.e b.e⟩ x hpB
      simp only [sweepAux, if_pos hov]
      rw [covered_cons, ihB, covered_cons, covered_cons, covered_cons]
      constructor
      · rintro (⟨h1, h2⟩ | ⟨h1, h2⟩ | h)
        · rcases le_or_lt x a.e with hx | hx
          · exact Or.inl ⟨h1, hx⟩
          · have hxb : x ≤ b.e := by
              rcases le_max_iff.mp h2 with h' | h'
              · exact absurd h' (not_le.mpr hx)
              · exact h'
            exact Or.inr (Or.inl ⟨by linarith, hxb⟩)
        · rcases le_or_lt x b.e with hx | hx
          · exact Or.inr (Or.inl ⟨h1, hx⟩)
          · have hxa : x ≤ a.e := by
              rcases le_max_iff.mp h2 with h' | h'
              · exact h'
              · exact absurd h' (not_le.mpr hx)
            exact Or.inl ⟨by linarith, hxa⟩
        · exact Or.inr (Or.inr h)
      · rintro (⟨h1, h2⟩ | ⟨h1, h2⟩ | h)
        · exact Or.inl ⟨h1, le_trans h2 (le_max_left _ _)⟩
        · exact Or.inr (Or.inl ⟨h1, le_trans h2 (le_max_right _ _)⟩)
        · exact Or.inr (Or.inr h)
    · simp only [sweepAux, if_neg hov]
      rw [covered_cons, ih b x hpt]
      exact covered_cons.symm

theorem sweep_covered {l : List Iv} (hp : List.Pairwise startLe l) (x : ℚ) :
    covered (sweep l) x ↔ covered l x := by
  cases l with
  | nil => rfl
  | cons a t => exact sweepAux_covered t a x hp

/-! ## The dedupe step -/

theorem dedupeAux_sublist : ∀ (t : List Iv) (prev : ℚ),
    List.Sublist (dedupeAux prev t) t := by
  intro t
  induction t with
  | nil => intro prev; exact List.Sublist.refl []
  | cons x t ih =>
    intro prev
    by_cases h : x.e = prev
    · simp only [dedupeAux, if_pos h]
      exact List.Sublist.cons x (ih x.e)
    · simp only [dedupeAux, if_neg h]
      exact List.Sublist.cons₂ x (ih x.e)

theorem dedupe_sublist : ∀ l : List Iv, List.Sublist (dedupe l) l := by
  intro l
  cases l with
  | nil => exact List.Sublist.refl []
  | cons x t => exact dedupeAux_sublist (x :: t) (lastE (x :: t))

theorem dedupeAux_cons (prev : ℚ) (x : Iv) (t : List Iv) :
    dedupeAux prev (x :: t) =
      if x.e = prev then dedupeAux x.e t else x :: dedupeAux x.e t := rfl

theorem dedupeAux_length_lt : ∀ (t : List Iv) (prev : ℚ),
    adjEq t → (dedupeAux prev t).length < t.length := by
  intro t
  induction t with
  | nil => intro prev h; cases h
  | cons a rest ih =>
    intro prev h
    cases rest with
    | nil => cases h
    | cons b t2 =>
      by_cases ha : a.e = prev
      · rw [dedupeAux_cons, if_pos ha]
        have hle := (dedupeAux_sublist (b :: t2) a.e).length_le
        simp only [List.length_cons] at hle ⊢
        omega
      · rw [dedupeAux_cons, if_neg ha]
        have hlt : (dedupeAux a.e (b :: t2)).length < (b :: t2).length := by
          rcases h with h | h
          · have hb : b.e = a.e := h.symm
            rw [dedupeAux_cons, if_pos hb]
            have hle := (dedupeAux_sublist t2 b.e).length_le
            simp only [List.length_cons]
            omega
          · exact ih a.e h
        simp only [List.length_cons] at hlt ⊢
        omega

theorem dedupeAux_allEq : ∀ (t : List Iv) (p : ℚ),
    (∀ iv ∈ t, iv.e = p) → dedupeAux p t = [] := by
  intro t
  induction t with
  | nil => intro p _; rfl
  | cons x t ih =>
    intro p h
    have hx : x.e = p := h x (List.mem_cons_self _ _)
    simp only [dedupeAux, if_pos hx]
    refine ih x.e ?_
    intro iv hiv
    rw [h iv (List.mem_cons.mpr (Or.inr hiv)), hx]

theorem dedupe_allEq {l : List Iv} (h : ∀ iv ∈ l, iv.e = lastE l) : dedupe l = [] := by
  cases l with
  | nil => rfl
  | cons x t => exact dedupeAux_allEq (x :: t) (lastE (x :: t)) h

/-- Anchor lemma for the dedupe filter: any point covered by `t` stays
covered after filtering, or is covered by the already-kept anchor whose
end equals the rolled comparison value. -/
theorem dedupeAux_cov_anchor : ∀ (t : List Iv) (A : Iv) (x : ℚ),
    List.Pairwise startLe t → (∀ iv ∈ t, A.s ≤ iv.s) → covered t x →
    covered (dedupeAux A.e t) x ∨ (A.s ≤ x ∧ x ≤ A.e) := by
  intro t
  induction t with
  | nil => intro A x _ _ hcov; cases hcov with | intro iv h => cases h.1
  | cons v t2 ih =>
    intro A x hp hanch hcov
    have hps : ∀ y ∈ t2, v.s ≤ y.s := fun y hy => (List.pairwise_cons.mp hp).1 y hy
    have hpt : List.Pairwise startLe t2 := (List.pairwise_cons.mp hp).2
    have hAv : A.s ≤ v.s := hanch v (List.mem_cons_self _ _)
    rcases covered_cons.mp hcov with ⟨h1, h2⟩ | hcovt
    · by_cases hd : v.e = A.e
      · exact Or.inr ⟨le_trans hAv h1, by rw [← hd]; exact h2⟩
      · rw [dedupeAux_cons, if_neg hd]
        exact Or.inl (covered_cons.mpr (Or.inl ⟨h1, h2⟩))
    · by_cases hd : v.e = A.e
      · rw [dedupeAux_cons, if_pos hd]
        have hanch2 : ∀ iv ∈ t2, (Iv.mk A.s v.e).s ≤ iv.s :=
          fun iv hiv => hanch iv (List.mem_cons.mpr (Or.inr hiv))
        rcases ih ⟨A.s, v.e⟩ x hpt hanch2 hcovt with h | h
        · exact Or.inl h
        · exact Or.inr ⟨h.1, by rw [← hd]; exact h.2⟩
      · rw [dedupeAux_cons, if_neg hd]
        rcases ih v x hpt hps hcovt with h | h
        · exact Or.inl (covered_cons.mpr (Or.inr h))
        · exact Or.inl (covered_cons.mpr (Or.inl h))

/-- If the filter keeps the head row (its end differs from the rolled
trailing edge), the dedupe step preserves the covered set exactly. -/
theorem dedupe_cov_of_head_ne {v : Iv} {t : List Iv}
    (hp : List.Pairwise startLe (v :: t)) (hne : v.e ≠ lastE (v :: t)) (x : ℚ) :
    covered (dedupe (v :: t)) x ↔ covered (v :: t) x := by
  constructor
  · exact covered_subset fun iv hiv => (dedupe_sublist (v :: t)).mem hiv
  · intro hcov
    have hout : dedupe (v :: t) = v :: dedupeAux v.e t := by
      simp only [dedupe, dedupeAux_cons, if_neg hne]
    rw [hout]
    rcases covered_cons.mp hcov with ⟨h1, h2⟩ | hcovt
    · exact covered_cons.mpr (Or.inl ⟨h1, h2⟩)
    · have hps : ∀ y ∈ t, v.s ≤ y.s := fun y hy => (List.pairwise_cons.mp hp).1 y hy
      have hpt : List.Pairwise startLe t := (List.pairwise_cons.mp hp).2
      rcases dedupeAux_cov_anchor t v x hpt hps hcovt with h | h
      · exact covered_cons.mpr (Or.inr h)
      · exact covered_cons.mpr (Or.inl h)

/-! ## Trailing-edge structure of a sweep -/

theorem lastE_cons_cons (a b : Iv) (t : List Iv) :
    lastE (a :: b :: t) = lastE (b :: t) := rfl

theorem chain_endLe_head_le_last : ∀ (t : List Iv) (v : Iv),
    List.Chain' (fun u w : Iv => u.e ≤ w.e) (v :: t) → v.e ≤ lastE (v :: t) := by
  intro t
  induction t with
  | nil => intro v _; exact le_refl _
  | cons y t2 ih =>
    intro v hc
    have h1 : v.e ≤ y.e := (List.chain'_cons.mp hc).1
    have h2 := ih y (List.chain'_cons.mp hc).2
    rw [lastE_cons_cons]
    exact le_trans h1 h2

theorem chain_endLe_all_eq : ∀ (t : List Iv) (v : Iv),
    List.Chain' (fun u w : Iv => u.e ≤ w.e) (v :: t) → v.e = lastE (v :: t) →
    ∀ iv ∈ v :: t, iv.e = v.e := by
  intro t
  induction t with
  | nil =>
    intro v _ _ iv hiv
    have : iv = v := by simpa using hiv
    rw [this]
  | cons y t2 ih =>
    intro v hc heq iv hiv
    have h1 : v.e ≤ y.e := (List.chain'_cons.mp hc).1
    have hc2 : List.Chain' (fun u w : Iv => u.e ≤ w.e) (y :: t2) := (List.chain'_cons.mp hc).2
    have h2 : y.e ≤ lastE (y :: t2) := chain_endLe_head_le_last t2 y hc2
    rw [lastE_cons_cons] at heq
    have hyv : y.e = v.e := by
      have : v.e ≤ y.e := h1
      have : y.e ≤ v.e := by rw [heq]; exact h2
      linarith
    rcases List.mem_cons.mp hiv with h | h
    · rw [h]
    · have heq2 : y.e = lastE (y :: t2) := by rw [hyv, heq]
      have := ih y hc2 heq2 iv h
      rw [this, hyv]

/-- Structure of the post-sweep trailing edges for sorted, valid input:
either the ends are monotone non-decreasing along the output, or the
first output end is strictly below the last one.  (This is what makes the
wrap-around `np.roll` comparison safe: the first row is only discarded
when the whole array has collapsed to a single trailing edge.) -/
theorem sweepAux_endShape : ∀ (t : List Iv) (a : Iv),
    List.Pairwise startLe (a :: t) → (∀ iv ∈ a :: t, iv.s < iv.e) →
    List.Chain' (fun u w : Iv => u.e ≤ w.e) (sweepAux a t) ∨
      ∃ c r, sweepAux a t = c :: r ∧ c.e < lastE (c :: r) := by
  intro t
  induction t with
  | nil =>
    intro a _ _
    exact Or.inl (List.chain'_singleton a)
  | cons b t2 ih =>
    intro a hp hv
    have hab : a.s ≤ b.s := (List.pairwise_cons.mp hp).1 b (List.mem_cons_self _ _)
    have hpt : List.Pairwise startLe (b :: t2) := (List.pairwise_cons.mp hp).2
    have hvb : b.s < b.e := hv b (List.mem_cons.mpr (Or.inr (List.mem_cons_self _ _)))
    have hvt : ∀ iv ∈ b :: t2, iv.s < iv.e :=
      fun iv hiv => hv iv (List.mem_cons.mpr (Or.inr hiv))
    by_cases hov : b.s < a.e
    · -- merged head: both rows get end `max a.e b.e`
      have hpB : List.Pairwise startLe ((⟨b.s, max a.e b.e⟩ : Iv) :: t2) := by
        rcases List.pairwise_cons.mp hpt with ⟨hb, ht⟩
        exact List.pairwise_cons.mpr ⟨fun y hy => hb y hy, ht⟩
      have hvB : ∀ iv ∈ (⟨b.s, max a.e b.e⟩ : Iv) :: t2, iv.s < iv.e := by
        intro iv hiv
        rcases List.mem_cons.mp hiv with h | h
        · rw [h]; exact lt_of_lt_of_le hvb (le_max_right _ _)
        · exact hvt iv (List.mem_cons.mpr (Or.inr h))
      obtain ⟨c, r, hcr, hcs, hce⟩ := sweepAux_head t2 (⟨b.s, max a.e b.e⟩ : Iv)
      rcases ih ⟨b.s, max a.e b.e⟩ hpB hvB with hch | ⟨c', r', hcr', hlt'⟩
      · left
        simp only [sweepAux, if_pos hov]
        rw [hcr] at hch ⊢
        exact List.chain'_cons.mpr ⟨hce, hch⟩
      · right
        rw [hcr] at hcr'
        injection hcr' with h1 h2
        subst h1; subst h2
        refine ⟨⟨a.s, max a.e b.e⟩, c :: r, by simp [sweepAux, if_pos hov, hcr], ?_⟩
        rw [lastE_cons_cons]
        exact lt_of_le_of_lt hce hlt'
    · -- heads kept separate: `a.e ≤ b.s < b.e ≤` head end of the rest
      obtain ⟨c, r, hcr, hcs, hce⟩ := sweepAux_head t2 b
      have hac : a.e < c.e := by
        have : a.e ≤ b.s := not_lt.mp hov
        linarith [lt_of_lt_of_le hvb hce]
      rcases ih b hpt hvt with hch | ⟨c', r', hcr', hlt'⟩
      · left
        simp only [sweepAux, if_neg hov]
        rw [hcr] at hch ⊢
        exact List.chain'_cons.mpr ⟨le_of_lt hac, hch⟩
      · right
        rw [hcr] at hcr'
        injection hcr' with h1 h2
        subst h1; subst h2
        refine ⟨a, c :: r, by simp [sweepAux, if_neg hov, hcr], ?_⟩
        rw [lastE_cons_cons]
        exact lt_trans hac hlt'

/-! ## The merge loop -/

theorem mergeLoop_min_none {fuel : ℕ} {l : List Iv} (h : npmin (diffs l) = none) :
    mergeLoop fuel l = .error .emptyMin := by
  cases fuel <;> simp [mergeLoop, h]

theorem mergeLoop_nil : ∀ fuel : ℕ, mergeLoop fuel [] = .error .emptyMin := by
  intro fuel
  cases fuel <;> rfl

theorem mergeLoop_zero_neg {l : List Iv} {m : ℚ} (h : npmin (diffs l) = some m)
    (hm : m < 0) : mergeLoop 0 l = .error .nonConvergence := by
  simp [mergeLoop, h, hm]

theorem mergeLoop_succ_neg {f : ℕ} {l : List Iv} {m : ℚ} (h : npmin (diffs l) = some m)
    (hm : m < 0) : mergeLoop (f + 1) l = mergeLoop f (dedupe (sweep l)) := by
  simp [mergeLoop, h, hm]

theorem mergeLoop_exit {fuel : ℕ} {l : List Iv} {m : ℚ} (h : npmin (diffs l) = some m)
    (hm : ¬ m < 0) : mergeLoop fuel l = .ok l := by
  cases fuel <;> simp [mergeLoop, h, hm]

theorem sweep_sorted {l : List Iv} (hp : List.Pairwise startLe l) :
    List.Pairwise startLe (sweep l) := by
  cases l with
  | nil => exact List.Pairwise.nil
  | cons a t => exact sweepAux_sorted t a hp

theorem sweep_valid {l : List Iv} (hv : ∀ iv ∈ l, iv.s < iv.e) :
    ∀ iv ∈ sweep l, iv.s < iv.e := by
  cases l with
  | nil => intro iv hiv; cases hiv
  | cons a t => exact sweepAux_valid t a hv

theorem step_sorted {l : List Iv} (hp : List.Pairwise startLe l) :
    List.Pairwise startLe (dedupe (sweep l)) :=
  (sweep_sorted hp).sublist (dedupe_sublist (sweep l))

theorem step_valid {l : List Iv} (hv : ∀ iv ∈ l, iv.s < iv.e) :
    ∀ iv ∈ dedupe (sweep l), iv.s < iv.e :=
  fun iv hiv => sweep_valid hv iv ((dedupe_sublist (sweep l)).mem hiv)

/-- Whatever list the loop returns is sorted by start and pairwise
non-overlapping (`end[i] ≤ start[i+1]`): the loop only exits when
`np.min(diff) ≥ 0`, and its passes keep the array sorted. -/
theorem mergeLoop_sorted_chain : ∀ (fuel : ℕ) (l out : List Iv),
    List.Pairwise startLe l → mergeLoop fuel l = .ok out →
    List.Pairwise startLe out ∧ List.Chain' (fun u v => u.e ≤ v.s) out := by
  intro fuel
  induction fuel with
  | zero =>
    intro l out hp hok
    cases hmin : npmin (diffs l) with
    | none => rw [mergeLoop_min_none hmin] at hok; cases hok
    | some m =>
      by_cases hm : m < 0
      · rw [mergeLoop_zero_neg hmin hm] at hok; cases hok
      · rw [mergeLoop_exit hmin hm] at hok
        cases hok
        refine ⟨hp, diffs_nonneg_chain l ?_⟩
        intro d hd
        exact le_trans (not_lt.mp hm) (npmin_le hmin d hd)
  | succ f ih =>
    intro l out hp hok
    cases hmin : npmin (diffs l) with
    | none => rw [mergeLoop_min_none hmin] at hok; cases hok
    | some m =>
      by_cases hm : m < 0
      · rw [mergeLoop_succ_neg hmin hm] at hok
        exact ih (dedupe (sweep l)) out (step_sorted hp) hok
      · rw [mergeLoop_exit hmin hm] at hok
        cases hok
        refine ⟨hp, diffs_nonneg_chain l ?_⟩
        intro d hd
        exact le_trans (not_lt.mp hm) (npmin_le hmin d hd)

/-- While an overlap remains, each pass of the loop strictly shrinks the
array. -/
theorem step_length_lt {l : List Iv} (hov : adjOv l) :
    (dedupe (sweep l)).length < l.length := by
  obtain ⟨a, b, t, rfl⟩ := adjOv_shape hov
  have hadj : adjEq (sweepAux a (b :: t)) := sweepAux_adjEq (b :: t) a hov
  obtain ⟨c, r, hcr, _, _⟩ := sweepAux_head (b :: t) a
  have hlen : (sweepAux a (b :: t)).length = (a :: b :: t).length := by
    rw [sweepAux_length]; rfl
  calc (dedupe (sweep (a :: b :: t))).length
      = (dedupeAux (lastE (sweepAux a (b :: t))) (sweepAux a (b :: t))).length := by
        simp only [sweep]
        rw [hcr]
        rfl
    _ < (sweepAux a (b :: t)).length := by
        rw [hcr] at hadj ⊢
        exact dedupeAux_length_lt (c :: r) (lastE (c :: r)) hadj
    _ = (a :: b :: t).length := hlen

/-- The loop always terminates within `l.length` passes: it either exits
with a calendar or crashes on an empty `diff`; with that much fuel the
`nonConvergence` marker is unreachable. -/
theorem mergeLoop_total : ∀ (fuel : ℕ) (l : List Iv), l.length ≤ fuel →
    mergeLoop fuel l = .error .emptyMin ∨ ∃ out, mergeLoop fuel l = .ok out := by
  intro fuel
  induction fuel with
  | zero =>
    intro l hlen
    have : l = [] := List.length_eq_zero.mp (Nat.le_zero.mp hlen)
    rw [this, mergeLoop_nil]
    exact Or.inl rfl
  | succ f ih =>
    intro l hlen
    cases hmin : npmin (diffs l) with
    | none => exact Or.inl (mergeLoop_min_none hmin)
    | some m =>
      by_cases hm : m < 0
      · have hov : adjOv l := diffs_neg_adjOv l m (npmin_mem hmin) hm
        have hlt := step_length_lt hov
        have hrec := ih (dedupe (sweep l)) (by omega)
        rw [mergeLoop_succ_neg hmin hm]
        exact hrec
      · exact Or.inr ⟨l, mergeLoop_exit hmin hm⟩

/-- One loop pass preserves the covered set, unless it wipes the whole
array (head row discarded by the wrap-around roll comparison), in which
case the next iteration crashes on the empty `diff`.  Packaged: if the
loop returns a calendar, that calendar covers exactly what its input
covered. -/
theorem mergeLoop_cov : ∀ (fuel : ℕ) (l out : List Iv),
    List.Pairwise startLe l → (∀ iv ∈ l, iv.s < iv.e) →
    mergeLoop fuel l = .ok out → ∀ x, covered out x ↔ covered l x := by
  intro fuel
  induction fuel with
  | zero =>
    intro l out hp hv hok x
    cases hmin : npmin (diffs l) with
    | none => rw [mergeLoop_min_none hmin] at hok; cases hok
    | some m =>
      by_cases hm : m < 0
      · rw [mergeLoop_zero_neg hmin hm] at hok; cases hok
      · rw [mergeLoop_exit hmin hm] at hok
        cases hok
        rfl
  | succ f ih =>
    intro l out hp hv hok x
    cases hmin : npmin (diffs l) with
    | none => rw [mergeLoop_min_none hmin] at hok; cases hok
    | some m =>
      by_cases hm : m < 0
      · rw [mergeLoop_succ_neg hmin hm] at hok
        -- the diff array is nonempty, so the list has at least two rows
        obtain ⟨a, rest, rfl⟩ : ∃ a rest, l = a :: rest := by
          cases l with
          | nil => cases (npmin_eq_none (l := diffs []) rfl ▸ hmin)
          | cons a rest => exact ⟨a, rest, rfl⟩
        obtain ⟨c, r, hcr, hcs, hce⟩ := sweepAux_head rest a
        have hsw : sweep (a :: rest) = c :: r := by
          simp only [sweep]; exact hcr
        by_cases hhd : c.e = lastE (c :: r)
        · -- whole array has one trailing edge: everything is discarded
          rcases sweepAux_endShape rest a hp hv with hch | ⟨c', r', hcr', hlt'⟩
          · rw [hcr] at hch
            have hall : ∀ iv ∈ c :: r, iv.e = lastE (c :: r) := by
              intro iv hiv
              rw [chain_endLe_all_eq r c hch hhd iv hiv, hhd]
            have hnil : dedupe (sweep (a :: rest)) = [] := by
              rw [hsw]
              exact dedupe_allEq hall
            rw [hnil, mergeLoop_nil] at hok
            cases hok
          · rw [hcr] at hcr'
            injection hcr' with h1 h2
            subst h1; subst h2
            exact absurd hhd (ne_of_lt hlt')
        · -- head row kept: the pass preserves coverage exactly
          have hpsw : List.Pairwise startLe (c :: r) := by
            rw [← hsw]; exact sweep_sorted hp
          have hstep : ∀ y, covered (dedupe (sweep (a :: rest))) y ↔ covered (a :: rest) y := by
            intro y
            rw [hsw]
            rw [dedupe_cov_of_head_ne hpsw hhd y, ← hsw]
            exact sweep_covered hp y
          have := ih (dedupe (sweep (a :: rest))) out
            (step_sorted hp) (step_valid hv) hok x
          rw [this, hstep x]
      · rw [mergeLoop_exit hmin hm] at hok
        cases hok
        rfl

theorem sortIv_sorted (l : List Iv) : List.Pairwise startLe (sortIv l) :=
  List.sorted_insertionSort startLe l

theorem sortIv_perm (l : List Iv) : (sortIv l).Perm l :=
  List.perm_insertionSort startLe l

/-! ## Claim theorems for the merge step -/

/-- C1: whenever the merge step of `new_downtimes` returns a calendar,
that calendar is sorted ascending by start and every adjacent pair
satisfies `end[i] ≤ start[i+1]` — no overlapping intervals remain. -/
theorem merge_output_sorted_nonoverlapping (l out : List Iv)
    (hok : mergeDowntimes l = .ok out) :
    List.Pairwise startLe out ∧ List.Chain' (fun u v => u.e ≤ v.s) out :=
  mergeLoop_sorted_chain l.length (sortIv l) out (sortIv_sorted l) hok

theorem merge_output_sorted_nonoverlapping_witness :
    List.Pairwise startLe [Iv.mk 0 7, Iv.mk 10 12] ∧
      List.Chain' (fun u v => u.e ≤ v.s) [Iv.mk 0 7, Iv.mk 10 12] :=
  merge_output_sorted_nonoverlapping [⟨0, 5⟩, ⟨3, 7⟩, ⟨10, 12⟩] [⟨0, 7⟩, ⟨10, 12⟩]
    (by norm_num [mergeDowntimes, mergeLoop, sortIv, List.insertionSort, List.orderedInsert,
      startLe, diffs, npmin, sweep, sweepAux, dedupe, dedupeAux, lastE])

/-- C2: for inputs whose intervals are genuine (end > start, as all three
sources produce), whenever the merge step returns a calendar the union of
time covered by that calendar equals the union of time covered by the
inputs — merging never shrinks (or grows) coverage. -/
theorem merge_preserves_coverage (l out : List Iv) (hv : validIvs l)
    (hok : mergeDowntimes l = .ok out) : ∀ x, covered out x ↔ covered l x := by
  intro x
  have hperm := sortIv_perm l
  have hvs : ∀ iv ∈ sortIv l, iv.s < iv.e := fun iv hiv => hv iv (hperm.mem_iff.mp hiv)
  have := mergeLoop_cov l.length (sortIv l) out (sortIv_sorted l) hvs hok x
  rw [this]
  exact covered_perm hperm x

theorem merge_preserves_coverage_witness :
    covered [Iv.mk 1 6, Iv.mk 9 11] 3 ↔ covered [Iv.mk 1 4, Iv.mk 2 6, Iv.mk 9 11] 3 :=
  merge_preserves_coverage [⟨1, 4⟩, ⟨2, 6⟩, ⟨9, 11⟩] [⟨1, 6⟩, ⟨9, 11⟩]
    (by norm_num [validIvs])
    (by norm_num [mergeDowntimes, mergeLoop, sortIv, List.insertionSort, List.orderedInsert,
      startLe, diffs, npmin, sweep, sweepAux, dedupe, dedupeAux, lastE])
    3

/-- C5: with the pass budget capped at the interval count, the merge loop
of `new_downtimes` always finishes — it either crashes on an empty `diff`
array or returns a calendar, and the over-budget marker `nonConvergence`
is unreachable, because every pass that still sees an overlap removes at
least one row.  The loop therefore never runs more passes than the number
of input intervals and cannot loop indefinitely. -/
theorem merge_loop_never_diverges (l : List Iv) :
    mergeDowntimes l = .error .emptyMin ∨ ∃ out, mergeDowntimes l = .ok out := by
  have hlen : (sortIv l).length ≤ l.length := le_of_eq (sortIv_perm l).length_eq
  exact mergeLoop_total l.length (sortIv l) hlen

/-- C9: merging the input intervals (10,12), (11,13), (20,21) returns
exactly (10,13) and (20,21), in that order. -/
theorem merge_example_result :
    mergeDowntimes [⟨10, 12⟩, ⟨11, 13⟩, ⟨20, 21⟩] = .ok [⟨10, 13⟩, ⟨20, 21⟩] := by
  norm_num [mergeDowntimes, mergeLoop, sortIv, List.insertionSort, List.orderedInsert,
    startLe, diffs, npmin, sweep, sweepAux, dedupe, dedupeAux, lastE]

/-- C10: if the concatenated downtime list holds fewer than two
intervals, the computed `diff` array is empty and the overlap check
`np.min(diff)` raises, instead of returning the (trivially
non-overlapping) calendar. -/
theorem merge_short_list_crashes (l : List Iv) (hlen : l.length < 2) :
    mergeDowntimes l = .error .emptyMin := by
  cases l with
  | nil => rfl
  | cons x t =>
    cases t with
    | nil => rfl
    | cons y t2 =>
      exfalso
      simp only [List.length_cons] at hlen
      omega

theorem merge_short_list_crashes_witness :
    [Iv.mk 3 4].length < 2 ∧ mergeDowntimes [Iv.mk 3 4] = .error .emptyMin :=
  ⟨by norm_num, merge_short_list_crashes [⟨3, 4⟩] (by norm_num)⟩

/-! ## Claim theorems for the sampler -/

theorem steadyEvent_eq_find (p : ℚ) :
    steadyEvent p = eventTable.find? fun ev => decide (p < ev.P) := by
  by_cases h1 : p < CATASTROPHIC_EVENT.P
  · simp [steadyEvent, eventTable, List.find?, h1]
  · by_cases h2 : p < MAJOR_EVENT.P
    · simp [steadyEvent, eventTable, List.find?, h1, h2]
    · by_cases h3 : p < INTERMEDIATE_EVENT.P
      · simp [steadyEvent, eventTable, List.find?, h1, h2, h3]
      · by_cases h4 : p < MINOR_EVENT.P
        · simp [steadyEvent, eventTable, List.find?, h1, h2, h3, h4]
        · simp [steadyEvent, eventTable, List.find?, h1, h2, h3, h4]

/-- C3: on a steady-state night (index at least 380) that is not marked
occupied, the severity thresholds are examined against the night's single
uniform draw in the fixed order catastrophic, major, intermediate, minor;
the first severity whose probability exceeds the draw fires, producing
one interval from that night's sunset lasting its duration in days, and
at most one severity fires (the appended record list is the `Option`
image of the first match). -/
theorem steady_priority_order (m : RngModel) (st : MDState) (night : ℕ) (ss sr : ℚ)
    (h380 : end_of_start ≤ night) (hc : st.counted night = false) :
    (nightStep m st night ss sr).recs = st.recs ++
      ((eventTable.find? fun ev => decide (m.draws st.k < ev.P)).map
        fun ev => DownRec.mk ss (ss + (ev.days : ℚ)) ev.level).toList := by
  unfold nightStep
  rw [hc]
  simp only [Bool.false_eq_true, if_false, if_neg (not_lt.mpr h380)]
  rw [← steadyEvent_eq_find]
  cases hse : steadyEvent (m.draws st.k) with
  | none => simp
  | some ev => simp

theorem steady_priority_order_witness :
    (nightStep zeroRng mdInit 400 100 101).recs = mdInit.recs ++
      ((eventTable.find? fun ev => decide (zeroRng.draws mdInit.k < ev.P)).map
        fun ev => DownRec.mk 100 (100 + (ev.days : ℚ)) ev.level).toList :=
  steady_priority_order zeroRng mdInit 400 100 101 (by norm_num [end_of_start]) rfl

/-- C4 counterexample: on a night shorter than one hour
(`hours_in_night = 1/2`), a fired elevated-period event has
`clampDuration` raise the Gumbel draw `1/5` to a full hour, so the
clamped duration is NOT within `[1, hours_in_night]` (that interval is
empty); the generated record falls back to the whole night. -/
theorem elevated_clamp_cex :
    clampDuration (1/5) (1/2) = 1 ∧ ¬ clampDuration (1/5) (1/2) ≤ (1/2 : ℚ) ∧
      (nightStep demoRng mdInit 0 100 (100 + 1/48)).recs =
        [DownRec.mk 100 (100 + 1/48) "Year1 Eng"] := by
  refine ⟨by norm_num [clampDuration], by norm_num [clampDuration], ?_⟩
  norm_num [nightStep, mdInit, demoRng, nightlyThreshold, clampDuration, end_of_start]

/-- C4 amended: whenever the night is at least one hour long, the clamped
elevated-period duration lies in `[1 hour, hours_in_night]`; and (for any
night length) a fired elevated-period event yields exactly one record
which starts no earlier than sunset and never extends past that night's
sunrise — in the positive-slack branch because the uniform start offset
leaves room for the duration, otherwise because the record is the full
night. -/
theorem elevated_clamp_amended :
    (∀ g hours : ℚ, 1 ≤ hours →
      1 ≤ clampDuration g hours ∧ clampDuration g hours ≤ hours) ∧
    (∀ (m : RngModel) (st : MDState) (night : ℕ) (ss sr : ℚ), unitDraws m →
      night < end_of_start → st.counted night = false →
      (nightStep m st night ss sr).recs = st.recs ∨
        ∃ rec, (nightStep m st night ss sr).recs = st.recs ++ [rec] ∧
          ss ≤ rec.start ∧ rec.stop ≤ sr) := by
  constructor
  · intro g hours h1
    unfold clampDuration
    by_cases hg : g ≥ hours
    · simp only [if_pos hg]
      by_cases hle : hours ≤ 1
      · simp only [if_pos hle]
        exact ⟨le_refl 1, by linarith⟩
      · simp only [if_neg hle]
        exact ⟨by linarith, le_refl hours⟩
    · simp only [if_neg hg]
      by_cases hle : g ≤ 1
      · simp only [if_pos hle]
        exact ⟨le_refl 1, h1⟩
      · simp only [if_neg hle]
        exact ⟨by linarith, by linarith⟩
  · intro m st night ss sr hu h380 hc
    unfold nightStep
    rw [hc]
    simp only [Bool.false_eq_true, if_false, if_pos h380]
    by_cases hfire : m.draws st.k ≤ nightlyThreshold night
    · rw [if_pos hfire]
      set hours := (sr - ss) * 24 with hhours
      set dur := clampDuration (m.gumbelOf (m.draws (st.k + 1))) hours with hdur
      have hdur1 : 1 ≤ dur := by
        rw [hdur]
        unfold clampDuration
        by_cases hg : m.gumbelOf (m.draws (st.k + 1)) ≥ hours
        · simp only [if_pos hg]
          by_cases hle : hours ≤ 1
          · simp only [if_pos hle]
            exact le_refl 1
          · simp only [if_neg hle]
            linarith [not_le.mp hle]
        · simp only [if_neg hg]
          by_cases hle : m.gumbelOf (m.draws (st.k + 1)) ≤ 1
          · simp only [if_pos hle]
            exact le_refl 1
          · simp only [if_neg hle]
            linarith [not_le.mp hle]
      by_cases hslack : hours - dur ≤ 0
      · rw [if_pos hslack]
        right
        exact ⟨⟨ss, sr, "Year1 Eng"⟩, rfl, le_refl ss, le_refl sr⟩
      · rw [if_neg hslack]
        right
        have htm : 0 < hours - dur := by linarith [not_le.mp hslack]
        obtain ⟨hu0, hu1⟩ := hu (st.k + 2)
        have hnn : 0 ≤ (hours - dur) / 24 := by positivity
        have hmul : ((hours - dur) / 24) * m.draws (st.k + 2) ≤ (hours - dur) / 24 :=
          mul_le_of_le_one_right hnn (le_of_lt hu1)
        have hmul0 : 0 ≤ ((hours - dur) / 24) * m.draws (st.k + 2) :=
          mul_nonneg hnn hu0
        refine ⟨⟨ss + ((hours - dur) / 24) * m.draws (st.k + 2),
          ss + ((hours - dur) / 24) * m.draws (st.k + 2) + dur / 24, "Year1 Eng"⟩,
          rfl, by linarith, ?_⟩
        have hkey : (hours - dur) / 24 + dur / 24 = sr - ss := by
          rw [hhours]
          ring
        simp only
        linarith
    · rw [if_neg hfire]
      left
      rfl

theorem elevated_clamp_amended_witness :
    (1 ≤ clampDuration 3 8 ∧ clampDuration 3 8 ≤ 8) ∧
      ((nightStep demoRng mdInit 5 100 (100 + 5/12)).recs = mdInit.recs ∨
        ∃ rec, (nightStep demoRng mdInit 5 100 (100 + 5/12)).recs = mdInit.recs ++ [rec] ∧
          100 ≤ rec.start ∧ rec.stop ≤ 100 + 5/12) :=
  ⟨elevated_clamp_amended.1 3 8 (by norm_num),
   elevated_clamp_amended.2 demoRng mdInit 5 100 (100 + 5/12)
     (fun k => by norm_num [demoRng]) (by norm_num [end_of_start]) rfl⟩

/-- C6 counterexample: `make_data` performs no input validation.  With an
empty night-window sequence it returns an empty downtime array instead of
failing, and with windows out of chronological order it happily produces
records (here: two of them). -/
theorem sampler_no_invalid_input_error :
    (Unscheduled.mk [] [] 43).downtime (fun _ => demoRng) = [] ∧
      ((Unscheduled.mk [5, 1] [6, 2] 43).downtime (fun _ => demoRng)).length = 2 := by
  constructor
  · rfl
  · norm_num [Unscheduled.downtime, makeDataOf, nightsLoop, nightStep, demoRng, mdInit,
      nightlyThreshold, clampDuration, end_of_start, List.zip]

/-- C6 amended: the code never checks its night windows.  Empty windows
yield an empty downtime array (the nightly loop body never runs), and
unordered windows are processed as-is; no `InvalidInput` failure exists
anywhere in `UnscheduledDowntimeDataYearOne`. -/
theorem sampler_accepts_empty_windows (dr : ℤ → RngModel) (sr : List ℚ) (seed : ℤ) :
    (Unscheduled.mk [] sr seed).downtime dr = [] := rfl

/-- C7 counterexample: the almanac filter of `new_downtimes` keeps only
nights `0 ≤ night < 366`, so a night inside the elevated window —
here night 370, below `end_of_start = 380` — is not selected, and the
sampler never receives it. -/
theorem builder_window_cex :
    selectYear1 [AlmRow.mk 370 100 101] = [] ∧ (370 : ℕ) < end_of_start := by
  constructor
  · rfl
  · norm_num [end_of_start]

/-- C7 amended: `new_downtimes` selects exactly the almanac rows with
`0 ≤ night < 366` — fewer than the 380-night elevated window, so nights
366..379 of the elevated regime are never sampled (and the steady-state
branch of the year-one sampler is unreachable in this pipeline) — and
passes the −12° twilight sunset/sunrise columns of the selected rows to
the year-one sampler before merging with the two external sources. -/
theorem builder_window_amended :
    (∀ (alm : List AlmRow) (r : AlmRow),
        r ∈ selectYear1 alm ↔ r ∈ alm ∧ 0 ≤ r.night ∧ r.night < 366) ∧
      366 < end_of_start ∧
      (∀ (dr : ℤ → RngModel) (alm : List AlmRow) (regular sched : List Iv),
        newDowntimes dr alm regular sched = mergeDowntimes
          ((((Unscheduled.mk ((selectYear1 alm).map fun r => r.sun_n12_setting)
              ((selectYear1 alm).map fun r => r.sun_n12_rising) 43).downtime dr).map
            fun rc => Iv.mk rc.start rc.stop) ++ regular ++ sched)) := by
  refine ⟨?_, by norm_num [end_of_start], fun dr alm regular sched => rfl⟩
  intro alm r
  simp [selectYear1, List.mem_filter]

/-- C8: the sampler is deterministic — two
`UnscheduledDowntimeDataYearOne` instances given the same sunsets,
sunrises and seed produce identical downtime arrays (same starts, ends
and activity labels in the same order).  This rests on
`np.random.default_rng` being a deterministic function of the seed, which
is how the generator is modelled (`dr`). -/
theorem sampler_deterministic (dr : ℤ → RngModel) (a b : Unscheduled)
    (h1 : a.sunsets = b.sunsets) (h2 : a.sunrises = b.sunrises) (h3 : a.seed = b.seed) :
    a.downtime dr = b.downtime dr := by
  cases a
  cases b
  cases h1
  cases h2
  cases h3
  rfl

theorem sampler_deterministic_witness :
    (Unscheduled.mk [100] [101] 7).downtime (fun _ => demoRng) =
      (Unscheduled.mk [100] [101] 7).downtime (fun _ => demoRng) :=
  sampler_deterministic (fun _ => demoRng) _ _ rfl rfl rfl
